import Mathlib

/-!
Verification of the incrementally-maintained reverse name index
(`src/core/src/components/name.rs`): the `Name` key type, the `NameTable`
reverse index, and the `NameTableBookkeeping` system that drains component
change events and replays them into the table via a removal pass and an
insertion pass.
-/

/-- Entities are opaque handles; we model them by their index. -/
abbrev Entity := Nat

/-- `Name(String)`: a string-backed key.  Equality is derived field-wise,
so two names are equal exactly when their texts are equal. -/
structure Name where
  text : String
deriving DecidableEq

/-- The derived hash of a `Name` hashes its single `String` field. -/
def nameHash (n : Name) : UInt64 := hash n.text

instance : Hashable Name := ⟨nameHash⟩

/-- A view of the `Name` component storage: each entity's current name,
if it has one. -/
abbrev Storage := Entity → Option Name

/-- `NameTable { names: HashMap<Name, Entity> }`, modelled as the lookup
function of the map. -/
structure NameTable where
  names : Name → Option Entity

/-- `NameTable::get`: lookup by borrowed string slice, which by
`impl Borrow<str> for Name` compares against the key's text. -/
def NameTable.get (tbl : NameTable) (s : String) : Option Entity :=
  tbl.names ⟨s⟩

/-- `HashMap::remove` of the entry keyed by `n` (other keys untouched). -/
def NameTable.removeKey (tbl : NameTable) (n : Name) : NameTable :=
  ⟨fun k => if k = n then none else tbl.names k⟩

/-- `HashMap` write of `n → e` (entry API: both vacant and occupied
branches end in this write). -/
def NameTable.insertKey (tbl : NameTable) (n : Name) (e : Entity) : NameTable :=
  ⟨fun k => if k = n then some e else tbl.names k⟩

/-- The table a fresh world starts with. -/
def emptyTable : NameTable := ⟨fun _ => none⟩

/-- `specs::ComponentEvent`: a change-log entry tagged with the affected
entity id. -/
inductive ComponentEvent where
  | Inserted (id : Entity)
  | Removed (id : Entity)
  | Modified (id : Entity)
deriving DecidableEq

/-- The system's two working sets (`inserted`, `removed` bitsets),
modelled by their membership functions. -/
structure NameTableBookkeeping where
  inserted : Entity → Bool
  removed : Entity → Bool

/-- Both working sets after `clear()`. -/
def clearedSets : NameTableBookkeeping := ⟨fun _ => false, fun _ => false⟩

/-- `BitSet::add`: membership-only, monotone. -/
def bitsetAdd (s : Entity → Bool) (id : Entity) : Entity → Bool :=
  fun e => e == id || s e

/-- One iteration of the event-draining `match`: `Inserted` flags the
entity inserted, `Removed` flags it removed, `Modified` flags both. -/
def recordEvent (st : NameTableBookkeeping) : ComponentEvent → NameTableBookkeeping
  | .Inserted id => { st with inserted := bitsetAdd st.inserted id }
  | .Removed id => { st with removed := bitsetAdd st.removed id }
  | .Modified id => { inserted := bitsetAdd st.inserted id, removed := bitsetAdd st.removed id }

/-- Draining the change-log slice since the last step into the working
sets, in log-append order. -/
def drainEvents (st : NameTableBookkeeping) (events : List ComponentEvent) : NameTableBookkeeping :=
  events.foldl recordEvent st

/-- One iteration of the removal pass's join: an entity that is in the
removed set and still has a current name gets that current name's entry
erased from the table. -/
def removalStep (s : Storage) (rem : Entity → Bool) (tbl : NameTable) (e : Entity) : NameTable :=
  if rem e then
    match s e with
    | some n => tbl.removeKey n
    | none => tbl
  else tbl

/-- The removal pass: `for (name, _) in (&names, &self.removed).join()`
over the storage's entities. -/
def removalPass (ents : List Entity) (s : Storage) (rem : Entity → Bool) (tbl : NameTable) : NameTable :=
  ents.foldl (removalStep s rem) tbl

/-- One `log::warn!` collision line: the incoming entity, the colliding
key text, and the previously mapped entity. -/
structure Warning where
  incoming : Entity
  keyText : String
  previous : Entity
deriving DecidableEq

/-- The entry-API body of the insertion pass: a vacant key is written
silently, an occupied key logs a collision warning and is overwritten. -/
def insertEntry (acc : NameTable × List Warning) (e : Entity) (n : Name) : NameTable × List Warning :=
  match acc.1.names n with
  | none => (acc.1.insertKey n e, acc.2)
  | some prev => (acc.1.insertKey n e, acc.2 ++ [⟨e, n.text, prev⟩])

/-- One iteration of the insertion pass's join: an entity in the inserted
set that has a current name gets that name written to the table. -/
def insertionStep (s : Storage) (ins : Entity → Bool) (acc : NameTable × List Warning) (e : Entity) : NameTable × List Warning :=
  if ins e then
    match s e with
    | some n => insertEntry acc e n
    | none => acc
  else acc

/-- The insertion pass: `for (ent, name, _) in (&entities, &names,
&self.inserted).join()`, accumulating the table and the warnings. -/
def insertionPassFrom (ents : List Entity) (s : Storage) (ins : Entity → Bool) (acc : NameTable × List Warning) : NameTable × List Warning :=
  ents.foldl (insertionStep s ins) acc

/-- `NameTableBookkeeping::run`: clear the working sets, drain the event
slice, run the removal pass, then the insertion pass.  `ents` is the
iteration order of the entities that the storage's joins visit; the
result carries the final working sets, the table, and the warnings. -/
def NameTableBookkeeping.run (st : NameTableBookkeeping) (events : List ComponentEvent)
    (ents : List Entity) (s : Storage) (tbl : NameTable) :
    NameTableBookkeeping × NameTable × List Warning :=
  let _ := st
  let st1 := drainEvents clearedSets events
  let tbl1 := removalPass ents s st1.removed tbl
  let out := insertionPassFrom ents s st1.inserted (tbl1, [])
  (st1, out.1, out.2)

/-- Modelled from the spec: the writes the insertion pass performs, in
join order: one `(entity, current name)` pair per inserted-flagged entity
that has a current value (spec 4.3 insertion pass). -/
def insertWrites (ents : List Entity) (s : Storage) (ins : Entity → Bool) : List (Entity × Name) :=
  ents.filterMap (fun e => if ins e then (s e).map (fun n => (e, n)) else none)

/-- Folding a list of insertion-pass writes over the table. -/
def applyWrites (ws : List (Entity × Name)) (acc : NameTable × List Warning) : NameTable × List Warning :=
  ws.foldl (fun a p => insertEntry a p.1 p.2) acc

/-- Modelled from the spec: an operation of the external attribute-store
collaborator — insert/overwrite an entity's name, or remove it outright
(spec 2 and 6: the store appends a change event on every
insert/remove/in-place overwrite). -/
inductive Op where
  | ins (e : Entity) (t : String)
  | del (e : Entity)
deriving DecidableEq

/-- The entity an operation affects. -/
def Op.entity : Op → Entity
  | .ins e _ => e
  | .del e => e

/-- Modelled from the spec: applying one store operation — the new
storage, plus the change event appended to the log.  An insert over an
existing value is an in-place overwrite and logs `Modified`; an insert
into an empty slot logs `Inserted`; removing a present value logs
`Removed`; removing an absent value logs nothing. -/
def applyOp (s : Storage) : Op → Storage × List ComponentEvent
  | .ins e t =>
      (fun x => if x = e then some ⟨t⟩ else s x,
       [if (s e).isSome then ComponentEvent.Modified e else ComponentEvent.Inserted e])
  | .del e =>
      (fun x => if x = e then none else s x,
       if (s e).isSome then [ComponentEvent.Removed e] else [])

/-- Modelled from the spec: applying a batch of store operations,
accumulating the log slice in append order. -/
def applyOps (s : Storage) : List Op → Storage × List ComponentEvent
  | [] => (s, [])
  | op :: rest =>
      let r := applyOp s op
      let r2 := applyOps r.1 rest
      (r2.1, r.2 ++ r2.2)

/-- The key texts an operation involves: the text being written, plus the
text of the value it displaces or removes, if any. -/
def opTexts (s : Storage) : Op → List String
  | .ins e t => t :: (match s e with | some n => [n.text] | none => [])
  | .del e => (match s e with | some n => [n.text] | none => [])

/-- The key texts occurring across a whole operation sequence, replayed
against the evolving storage. -/
def opsTexts (s : Storage) : List Op → List String
  | [] => []
  | op :: rest => opTexts s op ++ opsTexts (applyOp s op).1 rest

/-- The `(entity, text)` pairs of the insert operations of a batch, in
order. -/
def insPairsOf : List Op → List (Entity × String)
  | [] => []
  | .ins e t :: rest => (e, t) :: insPairsOf rest
  | .del _ :: rest => insPairsOf rest

/-- The attribute store together with the reverse index. -/
structure WorldState where
  storage : Storage
  table : NameTable

/-- Modelled from the spec: one scheduler step — the store applies a
batch of operations (each appending its change event), then the
bookkeeping system runs over the drained slice and the store's current
values. -/
def runStep (ents : List Entity) (w : WorldState) (ops : List Op) : WorldState × List Warning :=
  let r := applyOps w.storage ops
  let out := NameTableBookkeeping.run clearedSets r.2 ents r.1 w.table
  (⟨r.1, out.2.1⟩, out.2.2)

/-- Modelled from the spec: a sequence of scheduler steps, accumulating
the collision warnings. -/
def runSteps (ents : List Entity) (w : WorldState) : List (List Op) → WorldState × List Warning
  | [] => (w, [])
  | ops :: rest =>
      let r := runStep ents w ops
      let r2 := runSteps ents r.1 rest
      (r2.1, r.2 ++ r2.2)

/-- A world with no stored names and an empty table. -/
def emptyWorld : WorldState := ⟨fun _ => none, emptyTable⟩

/-- One step of the "handle most recently associated with text `t`"
bookkeeping: an insert of `t` associates its entity; any other operation
on the currently associated entity dissociates it. -/
def mroStep (t : String) (acc : Option Entity) : Op → Option Entity
  | .ins e t2 => if t2 = t then some e else if acc = some e then none else acc
  | .del e => if acc = some e then none else acc

/-- The handle most recently associated with text `t` by an operation
sequence, `none` when no handle is currently associated with it. -/
def mostRecentOwner (ops : List Op) (t : String) : Option Entity :=
  ops.foldl (mroStep t) none

/-! ## Characterization lemmas for the passes -/

/-- Whether an event flags entity `e` inserted. -/
def flagsIns (e : Entity) : ComponentEvent → Bool
  | .Inserted i => e == i
  | .Modified i => e == i
  | .Removed _ => false

/-- Whether an event flags entity `e` removed. -/
def flagsRem (e : Entity) : ComponentEvent → Bool
  | .Removed i => e == i
  | .Modified i => e == i
  | .Inserted _ => false

lemma drain_inserted (evs : List ComponentEvent) : ∀ (st : NameTableBookkeeping) (e : Entity),
    (drainEvents st evs).inserted e = (st.inserted e || evs.any (flagsIns e)) := by
  induction evs with
  | nil => intro st e; simp [drainEvents]
  | cons ev rest ih =>
    intro st e
    have : drainEvents st (ev :: rest) = drainEvents (recordEvent st ev) rest := rfl
    rw [this, ih]
    cases ev with
    | Inserted i =>
      simp only [recordEvent, bitsetAdd, List.any_cons, flagsIns]
      cases st.inserted e <;> cases (e == i) <;> simp
    | Removed i =>
      simp only [recordEvent, List.any_cons, flagsIns]
      simp
    | Modified i =>
      simp only [recordEvent, bitsetAdd, List.any_cons, flagsIns]
      cases st.inserted e <;> cases (e == i) <;> simp

lemma drain_removed (evs : List ComponentEvent) : ∀ (st : NameTableBookkeeping) (e : Entity),
    (drainEvents st evs).removed e = (st.removed e || evs.any (flagsRem e)) := by
  induction evs with
  | nil => intro st e; simp [drainEvents]
  | cons ev rest ih =>
    intro st e
    have : drainEvents st (ev :: rest) = drainEvents (recordEvent st ev) rest := rfl
    rw [this, ih]
    cases ev with
    | Inserted i =>
      simp only [recordEvent, List.any_cons, flagsRem]
      simp
    | Removed i =>
      simp only [recordEvent, bitsetAdd, List.any_cons, flagsRem]
      cases st.removed e <;> cases (e == i) <;> simp
    | Modified i =>
      simp only [recordEvent, bitsetAdd, List.any_cons, flagsRem]
      cases st.removed e <;> cases (e == i) <;> simp

lemma removalPass_names (s : Storage) (rem : Entity → Bool) :
    ∀ (ents : List Entity) (tbl : NameTable) (k : Name),
      (removalPass ents s rem tbl).names k
        = if ents.any (fun e => rem e && decide (s e = some k)) then none else tbl.names k := by
  intro ents
  induction ents with
  | nil => intro tbl k; simp [removalPass]
  | cons e rest ih =>
    intro tbl k
    have hstep : removalPass (e :: rest) s rem tbl = removalPass rest s rem (removalStep s rem tbl e) := rfl
    rw [hstep, ih]
    by_cases hrem : rem e
    · cases hse : s e with
      | none =>
        simp [removalStep, hrem, hse, List.any_cons]
      | some n =>
        by_cases hk : n = k
        · subst hk
          simp [removalStep, hrem, hse, List.any_cons, NameTable.removeKey]
        · have hk2 : ¬ k = n := fun h => hk h.symm
          simp [removalStep, hrem, hse, List.any_cons, NameTable.removeKey, hk, hk2]
    · simp [removalStep, hrem, List.any_cons]

lemma insertionPass_names (s : Storage) (ins : Entity → Bool) :
    ∀ (ents : List Entity) (acc : NameTable × List Warning) (k : Name),
      (insertionPassFrom ents s ins acc).1.names k
        = ents.foldl (fun a e => if ins e && decide (s e = some k) then some e else a) (acc.1.names k) := by
  intro ents
  induction ents with
  | nil => intro acc k; simp [insertionPassFrom]
  | cons e rest ih =>
    intro acc k
    have hstep : insertionPassFrom (e :: rest) s ins acc
        = insertionPassFrom rest s ins (insertionStep s ins acc e) := rfl
    rw [hstep, ih]
    have hacc : (insertionStep s ins acc e).1.names k
        = if ins e && decide (s e = some k) then some e else acc.1.names k := by
      by_cases hins : ins e
      · cases hse : s e with
        | none => simp [insertionStep, hins, hse]
        | some n =>
          by_cases hk : n = k
          · subst hk
            cases hocc : acc.1.names n <;>
              simp [insertionStep, hins, hse, insertEntry, hocc, NameTable.insertKey]
          · have hk2 : ¬ k = n := fun h => hk h.symm
            cases hocc : acc.1.names n <;>
              simp [insertionStep, hins, hse, insertEntry, hocc, NameTable.insertKey, hk, hk2]
      · simp [insertionStep, hins]
    rw [hacc, List.foldl_cons]

lemma foldl_if_keep (q : Entity → Bool) :
    ∀ (l : List Entity) (a : Option Entity), (∀ e ∈ l, q e = false) →
      l.foldl (fun acc e => if q e then some e else acc) a = a := by
  intro l
  induction l with
  | nil => intro a _; rfl
  | cons e rest ih =>
    intro a h
    have he : q e = false := h e (by simp)
    have : (e :: rest).foldl (fun acc x => if q x then some x else acc) a
        = rest.foldl (fun acc x => if q x then some x else acc) (if q e then some e else a) := rfl
    rw [this, he]
    simp only [Bool.false_eq_true, if_false]
    exact ih a (fun x hx => h x (by simp [hx]))

lemma foldl_mark (q : Entity → Bool) (a : Entity) (hq : ∀ e, q e = true ↔ e = a) :
    ∀ (l : List Entity) (init : Option Entity), a ∈ l →
      l.foldl (fun acc e => if q e then some e else acc) init = some a := by
  intro l
  induction l with
  | nil => intro init h; cases h
  | cons e rest ih =>
    intro init hmem
    have hstep : (e :: rest).foldl (fun acc x => if q x then some x else acc) init
        = rest.foldl (fun acc x => if q x then some x else acc) (if q e then some e else init) := rfl
    rw [hstep]
    by_cases hr : a ∈ rest
    · exact ih _ hr
    · have hea : e = a := by
        rcases List.mem_cons.mp hmem with h | h
        · exact h.symm
        · exact absurd h hr
      subst hea
      rw [(hq e).mpr rfl]
      simp only [if_true]
      exact foldl_if_keep q rest (some e) (fun x hx => by
        by_cases hqx : q x = true
        · exact absurd ((hq x).mp hqx ▸ hx) hr
        · simpa using hqx)

lemma insertionPass_filter (s : Storage) (ins : Entity → Bool) :
    ∀ (ents : List Entity) (acc : NameTable × List Warning),
      insertionPassFrom ents s ins acc
        = insertionPassFrom (ents.filter (fun e => ins e && (s e).isSome)) s ins acc := by
  intro ents
  induction ents with
  | nil => intro acc; rfl
  | cons e rest ih =>
    intro acc
    have hstep : insertionPassFrom (e :: rest) s ins acc
        = insertionPassFrom rest s ins (insertionStep s ins acc e) := rfl
    by_cases hins : ins e
    · cases hse : s e with
      | some n =>
        have hf : (e :: rest).filter (fun e => ins e && (s e).isSome)
            = e :: rest.filter (fun e => ins e && (s e).isSome) := by
          simp [List.filter_cons, hins, hse]
        rw [hstep, hf]
        have : insertionPassFrom (e :: rest.filter (fun e => ins e && (s e).isSome)) s ins acc
            = insertionPassFrom (rest.filter (fun e => ins e && (s e).isSome)) s ins (insertionStep s ins acc e) := rfl
        rw [this, ih]
      | none =>
        have hf : (e :: rest).filter (fun e => ins e && (s e).isSome)
            = rest.filter (fun e => ins e && (s e).isSome) := by
          simp [List.filter_cons, hins, hse]
        rw [hstep, hf]
        have hacc : insertionStep s ins acc e = acc := by simp [insertionStep, hins, hse]
        rw [hacc, ih]
    · have hf : (e :: rest).filter (fun e => ins e && (s e).isSome)
          = rest.filter (fun e => ins e && (s e).isSome) := by
        simp [List.filter_cons, hins]
      rw [hstep, hf]
      have hacc : insertionStep s ins acc e = acc := by simp [insertionStep, hins]
      rw [hacc, ih]


lemma filter_eq_nil_of_false (q : Entity → Bool) :
    ∀ (l : List Entity), (∀ e ∈ l, q e = false) → l.filter q = [] := by
  intro l h
  rw [List.filter_eq_nil_iff]
  intro a ha
  simp [h a ha]

lemma filter_eq_single (a : Entity) (q : Entity → Bool) :
    ∀ (l : List Entity), l.Nodup → a ∈ l → (∀ e ∈ l, q e = true → e = a) → q a = true →
      l.filter q = [a] := by
  intro l
  induction l with
  | nil => intro _ hmem; cases hmem
  | cons e rest ih =>
    intro hnd hmem hq hqa
    have hndr : rest.Nodup := (List.nodup_cons.mp hnd).2
    have hnotr : e ∉ rest := (List.nodup_cons.mp hnd).1
    by_cases hea : e = a
    · subst hea
      rw [List.filter_cons_of_pos hqa]
      have : rest.filter q = [] := by
        apply filter_eq_nil_of_false
        intro x hx
        by_cases hqx : q x = true
        · exact absurd (hq x (by simp [hx]) hqx ▸ hx) hnotr
        · simpa using hqx
      rw [this]
    · have hqe : ¬ (q e = true) := fun hqe => hea (hq e (by simp) hqe)
      rw [List.filter_cons_of_neg hqe]
      have hmr : a ∈ rest := by
        rcases List.mem_cons.mp hmem with h | h
        · exact absurd h.symm hea
        · exact h
      exact ih hndr hmr (fun x hx => hq x (by simp [hx])) hqa

lemma filter_eq_pair (a b : Entity) (q : Entity → Bool) (hab : a ≠ b) :
    ∀ (l : List Entity), l.Nodup → a ∈ l → b ∈ l →
      (∀ e ∈ l, q e = true → e = a ∨ e = b) → q a = true → q b = true →
      l.filter q = [a, b] ∨ l.filter q = [b, a] := by
  intro l
  induction l with
  | nil => intro _ hmem; cases hmem
  | cons e rest ih =>
    intro hnd hma hmb hq hqa hqb
    have hndr : rest.Nodup := (List.nodup_cons.mp hnd).2
    have hnotr : e ∉ rest := (List.nodup_cons.mp hnd).1
    by_cases hea : e = a
    · subst hea
      left
      rw [List.filter_cons_of_pos hqa]
      have hmbr : b ∈ rest := by
        rcases List.mem_cons.mp hmb with h | h
        · exact absurd h.symm hab
        · exact h
      have : rest.filter q = [b] := by
        apply filter_eq_single b q rest hndr hmbr _ hqb
        intro x hx hqx
        rcases hq x (by simp [hx]) hqx with h | h
        · exact absurd (h ▸ hx) hnotr
        · exact h
      rw [this]
    · by_cases heb : e = b
      · subst heb
        right
        rw [List.filter_cons_of_pos hqb]
        have hmar : a ∈ rest := by
          rcases List.mem_cons.mp hma with h | h
          · exact absurd h hab
          · exact h
        have : rest.filter q = [a] := by
          apply filter_eq_single a q rest hndr hmar _ hqa
          intro x hx hqx
          rcases hq x (by simp [hx]) hqx with h | h
          · exact h
          · exact absurd (h ▸ hx) hnotr
        rw [this]
      · have hqe : ¬ (q e = true) := by
          intro hqe
          rcases hq e (by simp) hqe with h | h
          · exact hea h
          · exact heb h
        rw [List.filter_cons_of_neg hqe]
        have hmar : a ∈ rest := by
          rcases List.mem_cons.mp hma with h | h
          · exact absurd h.symm hea
          · exact h
        have hmbr : b ∈ rest := by
          rcases List.mem_cons.mp hmb with h | h
          · exact absurd h.symm heb
          · exact h
        exact ih hndr hmar hmbr (fun x hx => hq x (by simp [hx])) hqa hqb

lemma insertionPass_eq_applyWrites (s : Storage) (ins : Entity → Bool) :
    ∀ (ents : List Entity) (acc : NameTable × List Warning),
      insertionPassFrom ents s ins acc = applyWrites (insertWrites ents s ins) acc := by
  intro ents
  induction ents with
  | nil => intro acc; rfl
  | cons e rest ih =>
    intro acc
    have hstep : insertionPassFrom (e :: rest) s ins acc
        = insertionPassFrom rest s ins (insertionStep s ins acc e) := rfl
    by_cases hins : ins e
    · cases hse : s e with
      | some n =>
        have hw : insertWrites (e :: rest) s ins = (e, n) :: insertWrites rest s ins := by
          simp [insertWrites, List.filterMap_cons, hins, hse]
        rw [hstep, hw]
        have happ : applyWrites ((e, n) :: insertWrites rest s ins) acc
            = applyWrites (insertWrites rest s ins) (insertEntry acc e n) := rfl
        rw [happ]
        have hacc : insertionStep s ins acc e = insertEntry acc e n := by
          simp [insertionStep, hins, hse]
        rw [hacc, ih]
      | none =>
        have hw : insertWrites (e :: rest) s ins = insertWrites rest s ins := by
          simp [insertWrites, List.filterMap_cons, hins, hse]
        rw [hstep, hw]
        have hacc : insertionStep s ins acc e = acc := by simp [insertionStep, hins, hse]
        rw [hacc, ih]
    · have hw : insertWrites (e :: rest) s ins = insertWrites rest s ins := by
        simp [insertWrites, List.filterMap_cons, hins]
      rw [hstep, hw]
      have hacc : insertionStep s ins acc e = acc := by simp [insertionStep, hins]
      rw [hacc, ih]

lemma insertWrites_value (s : Storage) (ins : Entity → Bool) :
    ∀ (ents : List Entity) (p : Entity × Name), p ∈ insertWrites ents s ins →
      s p.1 = some p.2 ∧ ins p.1 = true := by
  intro ents p hp
  rcases List.mem_filterMap.mp hp with ⟨e, _, he⟩
  by_cases hins : ins e
  · rw [if_pos hins] at he
    cases hse : s e with
    | none => rw [hse] at he; cases he
    | some n =>
      rw [hse] at he
      simp only [Option.map] at he
      cases he
      exact ⟨hse, hins⟩
  · rw [if_neg hins] at he; cases he

lemma insertWrites_count_le (s : Storage) (ins : Entity → Bool) (H : Entity) :
    ∀ (ents : List Entity),
      ((insertWrites ents s ins).filter (fun p => decide (p.1 = H))).length ≤ ents.count H := by
  intro ents
  induction ents with
  | nil => simp [insertWrites]
  | cons e rest ih =>
    by_cases hins : ins e
    · cases hse : s e with
      | some n =>
        have hw : insertWrites (e :: rest) s ins = (e, n) :: insertWrites rest s ins := by
          simp [insertWrites, List.filterMap_cons, hins, hse]
        rw [hw]
        by_cases heH : e = H
        · subst heH
          rw [List.filter_cons_of_pos (by simp)]
          simp only [List.length_cons, List.count_cons_self]
          exact Nat.succ_le_succ ih
        · rw [List.filter_cons_of_neg (by simp [heH])]
          calc ((insertWrites rest s ins).filter (fun p => decide (p.1 = H))).length
              ≤ rest.count H := ih
            _ ≤ (e :: rest).count H := List.count_le_count_cons H e rest
      | none =>
        have hw : insertWrites (e :: rest) s ins = insertWrites rest s ins := by
          simp [insertWrites, List.filterMap_cons, hins, hse]
        rw [hw]
        calc ((insertWrites rest s ins).filter (fun p => decide (p.1 = H))).length
            ≤ rest.count H := ih
          _ ≤ (e :: rest).count H := List.count_le_count_cons H e rest
    · have hw : insertWrites (e :: rest) s ins = insertWrites rest s ins := by
        simp [insertWrites, List.filterMap_cons, hins]
      rw [hw]
      calc ((insertWrites rest s ins).filter (fun p => decide (p.1 = H))).length
          ≤ rest.count H := ih
        _ ≤ (e :: rest).count H := by simp [List.count_cons]

/-! ## Replay lemmas for fresh operation sequences -/

lemma applyOps_cons_fst (s : Storage) (op : Op) (rest : List Op) :
    (applyOps s (op :: rest)).1 = (applyOps (applyOp s op).1 rest).1 := rfl

lemma applyOps_cons_snd (s : Storage) (op : Op) (rest : List Op) :
    (applyOps s (op :: rest)).2 = (applyOp s op).2 ++ (applyOps (applyOp s op).1 rest).2 := rfl

lemma opsTexts_append : ∀ (O Q : List Op) (s : Storage),
    opsTexts s (O ++ Q) = opsTexts s O ++ opsTexts (applyOps s O).1 Q := by
  intro O
  induction O with
  | nil => intro Q s; rfl
  | cons op rest ih =>
    intro Q s
    show opTexts s op ++ opsTexts (applyOp s op).1 (rest ++ Q) = _
    rw [ih]
    show _ = (opTexts s op ++ opsTexts (applyOp s op).1 rest) ++ opsTexts (applyOps s (op :: rest)).1 Q
    rw [List.append_assoc, applyOps_cons_fst]

lemma ins_mem_of_pair : ∀ (O : List Op) (p : Entity × String), p ∈ insPairsOf O → Op.ins p.1 p.2 ∈ O := by
  intro O
  induction O with
  | nil => intro p hp; cases hp
  | cons op rest ih =>
    intro p hp
    cases op with
    | ins e t =>
      rcases List.mem_cons.mp hp with h | h
      · subst h; simp
      · exact List.mem_cons.mpr (Or.inr (ih p h))
    | del e =>
      exact List.mem_cons.mpr (Or.inr (ih p hp))

lemma fresh_head_valueless (s : Storage) (op : Op) (rest : List Op)
    (hfresh : ∀ t, t ∈ opsTexts s (op :: rest) → ∀ e, s e ≠ some ⟨t⟩) :
    s op.entity = none := by
  cases op with
  | ins e t =>
    cases hse : s e with
    | none => exact hse
    | some n =>
      exfalso
      have hmem : n.text ∈ opsTexts s (.ins e t :: rest) := by
        simp [opsTexts, opTexts, hse]
      exact hfresh n.text hmem e hse
  | del e =>
    cases hse : s e with
    | none => exact hse
    | some n =>
      exfalso
      have hmem : n.text ∈ opsTexts s (.del e :: rest) := by
        simp [opsTexts, opTexts, hse]
      exact hfresh n.text hmem e hse

lemma applyOps_fresh_exec : ∀ (O : List Op) (s : Storage),
    (opsTexts s O).Nodup →
    (∀ t, t ∈ opsTexts s O → ∀ e, s e ≠ some ⟨t⟩) →
    ((applyOps s O).2 = (insPairsOf O).map (fun p => ComponentEvent.Inserted p.1)
      ∧ (∀ e, e ∉ (insPairsOf O).map Prod.fst → (applyOps s O).1 e = s e)
      ∧ (∀ p ∈ insPairsOf O, (applyOps s O).1 p.1 = some ⟨p.2⟩)
      ∧ ((insPairsOf O).map Prod.fst).Nodup
      ∧ opsTexts s O = (insPairsOf O).map Prod.snd
      ∧ (∀ p ∈ insPairsOf O, s p.1 = none)) := by
  intro O
  induction O with
  | nil =>
    intro s _ _
    refine ⟨rfl, fun e _ => rfl, ?_, ?_, rfl, ?_⟩
    · intro p hp; cases hp
    · simp [insPairsOf]
    · intro p hp; cases hp
  | cons op rest ih =>
    intro s hnd hfresh
    have hse : s op.entity = none := fresh_head_valueless s op rest hfresh
    cases op with
    | ins e t =>
      have hse : s e = none := hse
      have htexts : opsTexts s (.ins e t :: rest) = t :: opsTexts (applyOp s (.ins e t)).1 rest := by
        simp [opsTexts, opTexts, hse]
      have hnd2 : (opsTexts (applyOp s (.ins e t)).1 rest).Nodup := by
        rw [htexts] at hnd; exact (List.nodup_cons.mp hnd).2
      have htnotin : t ∉ opsTexts (applyOp s (.ins e t)).1 rest := by
        rw [htexts] at hnd; exact (List.nodup_cons.mp hnd).1
      have hs2e : (applyOp s (.ins e t)).1 e = some ⟨t⟩ := by
        simp [applyOp]
      have hs2other : ∀ x, x ≠ e → (applyOp s (.ins e t)).1 x = s x := by
        intro x hx; simp [applyOp, hx]
      have hfresh2 : ∀ t2, t2 ∈ opsTexts (applyOp s (.ins e t)).1 rest →
          ∀ x, (applyOp s (.ins e t)).1 x ≠ some ⟨t2⟩ := by
        intro t2 ht2 x
        by_cases hx : x = e
        · subst hx
          rw [hs2e]
          intro hcon
          have : t = t2 := by simpa [Name.mk.injEq] using hcon
          exact htnotin (this ▸ ht2)
        · rw [hs2other x hx]
          exact hfresh t2 (by rw [htexts]; exact List.mem_cons.mpr (Or.inr ht2)) x
      obtain ⟨ih1, ih2, ih3, ih4, ih5, ih6⟩ := ih (applyOp s (.ins e t)).1 hnd2 hfresh2
      have hP : insPairsOf (.ins e t :: rest) = (e, t) :: insPairsOf rest := rfl
      have henotin : e ∉ (insPairsOf rest).map Prod.fst := by
        intro hmem
        rcases List.mem_map.mp hmem with ⟨p, hp, hpe⟩
        have := ih6 p hp
        rw [hpe] at this
        rw [hs2e] at this
        cases this
      refine ⟨?_, ?_, ?_, ?_, ?_, ?_⟩
      · rw [applyOps_cons_snd, hP]
        simp only [List.map_cons]
        rw [ih1]
        simp [applyOp, hse]
      · intro x hx
        rw [hP] at hx
        simp only [List.map_cons, List.mem_cons, not_or] at hx
        rw [applyOps_cons_fst, ih2 x hx.2, hs2other x hx.1]
      · intro p hp
        rw [hP] at hp
        rcases List.mem_cons.mp hp with h | h
        · subst h
          rw [applyOps_cons_fst, ih2 e henotin, hs2e]
        · rw [applyOps_cons_fst]
          exact ih3 p h
      · rw [hP]
        simp only [List.map_cons]
        exact List.nodup_cons.mpr ⟨henotin, ih4⟩
      · rw [hP, htexts]
        simp only [List.map_cons]
        rw [ih5]
      · intro p hp
        rw [hP] at hp
        rcases List.mem_cons.mp hp with h | h
        · subst h; exact hse
        · have h6 := ih6 p h
          by_cases hpe : p.1 = e
          · rw [hpe, hs2e] at h6; cases h6
          · rw [hs2other p.1 hpe] at h6; exact h6
    | del e =>
      have hse : s e = none := hse
      have hs2 : ∀ x, (applyOp s (.del e)).1 x = s x := by
        intro x
        by_cases hx : x = e
        · subst hx; simp [applyOp, hse.symm]
        · simp [applyOp, hx]
      have htexts : opsTexts s (.del e :: rest) = opsTexts (applyOp s (.del e)).1 rest := by
        simp [opsTexts, opTexts, hse]
      have hnd2 : (opsTexts (applyOp s (.del e)).1 rest).Nodup := htexts ▸ hnd
      have hfresh2 : ∀ t2, t2 ∈ opsTexts (applyOp s (.del e)).1 rest →
          ∀ x, (applyOp s (.del e)).1 x ≠ some ⟨t2⟩ := by
        intro t2 ht2 x
        rw [hs2 x]
        exact hfresh t2 (htexts ▸ ht2) x
      obtain ⟨ih1, ih2, ih3, ih4, ih5, ih6⟩ := ih (applyOp s (.del e)).1 hnd2 hfresh2
      have hP : insPairsOf (.del e :: rest) = insPairsOf rest := rfl
      refine ⟨?_, ?_, ?_, ?_, ?_, ?_⟩
      · rw [applyOps_cons_snd, hP, ih1]
        simp [applyOp, hse]
      · intro x hx
        rw [hP] at hx
        rw [applyOps_cons_fst, ih2 x hx, hs2 x]
      · intro p hp
        rw [hP] at hp
        rw [applyOps_cons_fst]
        exact ih3 p hp
      · rw [hP]; exact ih4
      · rw [hP, htexts]; exact ih5
      · intro p hp
        rw [hP] at hp
        have h6 := ih6 p hp
        rw [hs2 p.1] at h6
        exact h6

lemma applyOps_fresh_mro : ∀ (O : List Op) (s : Storage),
    (opsTexts s O).Nodup →
    (∀ t, t ∈ opsTexts s O → ∀ e, s e ≠ some ⟨t⟩) →
    ((∀ p ∈ insPairsOf O, O.foldl (mroStep p.2) none = some p.1)
      ∧ (∀ t, t ∉ (insPairsOf O).map Prod.snd →
          ∀ acc, (∀ e, acc = some e → s e = some ⟨t⟩) → O.foldl (mroStep t) acc = acc)) := by
  intro O
  induction O with
  | nil =>
    intro s _ _
    exact ⟨fun p hp => absurd hp (by simp [insPairsOf]), fun t _ acc _ => rfl⟩
  | cons op rest ih =>
    intro s hnd hfresh
    have hse := fresh_head_valueless s op rest hfresh
    cases op with
    | ins e t =>
      have hse : s e = none := hse
      have htexts : opsTexts s (.ins e t :: rest) = t :: opsTexts (applyOp s (.ins e t)).1 rest := by
        simp [opsTexts, opTexts, hse]
      have hnd2 : (opsTexts (applyOp s (.ins e t)).1 rest).Nodup := by
        rw [htexts] at hnd; exact (List.nodup_cons.mp hnd).2
      have htnotin : t ∉ opsTexts (applyOp s (.ins e t)).1 rest := by
        rw [htexts] at hnd; exact (List.nodup_cons.mp hnd).1
      have hs2e : (applyOp s (.ins e t)).1 e = some ⟨t⟩ := by
        simp [applyOp]
      have hs2other : ∀ x, x ≠ e → (applyOp s (.ins e t)).1 x = s x := by
        intro x hx; simp [applyOp, hx]
      have hfresh2 : ∀ t2, t2 ∈ opsTexts (applyOp s (.ins e t)).1 rest →
          ∀ x, (applyOp s (.ins e t)).1 x ≠ some ⟨t2⟩ := by
        intro t2 ht2 x
        by_cases hx : x = e
        · subst hx
          rw [hs2e]
          intro hcon
          have : t = t2 := by simpa [Name.mk.injEq] using hcon
          exact htnotin (this ▸ ht2)
        · rw [hs2other x hx]
          exact hfresh t2 (by rw [htexts]; exact List.mem_cons.mpr (Or.inr ht2)) x
      obtain ⟨_, _, _, _, ihex5, _⟩ := applyOps_fresh_exec rest (applyOp s (.ins e t)).1 hnd2 hfresh2
      obtain ⟨ihm1, ihm2⟩ := ih (applyOp s (.ins e t)).1 hnd2 hfresh2
      have htsnd : t ∉ (insPairsOf rest).map Prod.snd := by
        rw [← ihex5]; exact htnotin
      constructor
      · intro p hp
        have hfold : (Op.ins e t :: rest).foldl (mroStep p.2) none
            = rest.foldl (mroStep p.2) (mroStep p.2 none (.ins e t)) := rfl
        rcases List.mem_cons.mp hp with h | h
        · subst h
          simp only []
          rw [hfold]
          have hstep1 : mroStep t none (.ins e t) = some e := by simp [mroStep]
          rw [hstep1]
          apply ihm2 t htsnd (some e)
          intro x hx
          cases hx
          exact hs2e
        · have hne : t ≠ p.2 := by
            intro hcon
            exact htsnd (hcon ▸ List.mem_map.mpr ⟨p, h, rfl⟩)
          rw [hfold]
          have hstep1 : mroStep p.2 none (.ins e t) = none := by
            simp [mroStep, hne]
          rw [hstep1]
          exact ihm1 p h
      · intro t2 ht2 acc hacc
        have hP : insPairsOf (.ins e t :: rest) = (e, t) :: insPairsOf rest := rfl
        rw [hP] at ht2
        simp only [List.map_cons, List.mem_cons, not_or] at ht2
        have hne : t ≠ t2 := fun h => ht2.1 h.symm
        have haccne : acc ≠ some e := by
          intro hcon
          have := hacc e hcon
          rw [hse] at this
          cases this
        have hfold : (Op.ins e t :: rest).foldl (mroStep t2) acc
            = rest.foldl (mroStep t2) (mroStep t2 acc (.ins e t)) := rfl
        have hstep1 : mroStep t2 acc (.ins e t) = acc := by
          simp [mroStep, hne, haccne]
        rw [hfold, hstep1]
        apply ihm2 t2 ht2.2 acc
        intro x hx
        have hsx := hacc x hx
        have hxe : x ≠ e := by
          intro hcon
          rw [hcon, hse] at hsx
          cases hsx
        rw [hs2other x hxe]
        exact hsx
    | del e =>
      have hse : s e = none := hse
      have hs2 : ∀ x, (applyOp s (.del e)).1 x = s x := by
        intro x
        by_cases hx : x = e
        · subst hx; simp [applyOp, hse.symm]
        · simp [applyOp, hx]
      have htexts : opsTexts s (.del e :: rest) = opsTexts (applyOp s (.del e)).1 rest := by
        simp [opsTexts, opTexts, hse]
      have hnd2 : (opsTexts (applyOp s (.del e)).1 rest).Nodup := htexts ▸ hnd
      have hfresh2 : ∀ t2, t2 ∈ opsTexts (applyOp s (.del e)).1 rest →
          ∀ x, (applyOp s (.del e)).1 x ≠ some ⟨t2⟩ := by
        intro t2 ht2 x
        rw [hs2 x]
        exact hfresh t2 (htexts ▸ ht2) x
      obtain ⟨ihm1, ihm2⟩ := ih (applyOp s (.del e)).1 hnd2 hfresh2
      have hP : insPairsOf (.del e :: rest) = insPairsOf rest := rfl
      constructor
      · intro p hp
        rw [hP] at hp
        have hfold : (Op.del e :: rest).foldl (mroStep p.2) none
            = rest.foldl (mroStep p.2) (mroStep p.2 none (.del e)) := rfl
        have hstep1 : mroStep p.2 none (.del e) = none := by
          simp [mroStep]
        rw [hfold, hstep1]
        exact ihm1 p hp
      · intro t2 ht2 acc hacc
        rw [hP] at ht2
        have haccne : acc ≠ some e := by
          intro hcon
          have := hacc e hcon
          rw [hse] at this
          cases this
        have hfold : (Op.del e :: rest).foldl (mroStep t2) acc
            = rest.foldl (mroStep t2) (mroStep t2 acc (.del e)) := rfl
        have hstep1 : mroStep t2 acc (.del e) = acc := by
          simp [mroStep, haccne]
        rw [hfold, hstep1]
        apply ihm2 t2 ht2 acc
        intro x hx
        rw [hs2 x]
        exact hacc x hx

lemma any_map_inserted_rem (x : Entity) : ∀ (l : List (Entity × String)),
    (l.map (fun p => ComponentEvent.Inserted p.1)).any (flagsRem x) = false := by
  intro l
  induction l with
  | nil => rfl
  | cons a rest ih => simp [List.any_cons, flagsRem, ih]

lemma any_map_inserted_ins (x : Entity) : ∀ (l : List (Entity × String)),
    (l.map (fun p => ComponentEvent.Inserted p.1)).any (flagsIns x)
      = l.any (fun p => x == p.1) := by
  intro l
  induction l with
  | nil => rfl
  | cons a rest ih => simp [List.any_cons, flagsIns, ih]

lemma drain_removed_inserted_events (l : List (Entity × String)) :
    (∀ x, (drainEvents clearedSets (l.map (fun p => ComponentEvent.Inserted p.1))).removed x = false)
      ∧ (∀ x, ((drainEvents clearedSets (l.map (fun p => ComponentEvent.Inserted p.1))).inserted x = true
          ↔ x ∈ l.map Prod.fst)) := by
  constructor
  · intro x
    rw [drain_removed]
    simp only [clearedSets, Bool.false_or]
    exact any_map_inserted_rem x l
  · intro x
    rw [drain_inserted]
    simp only [clearedSets, Bool.false_or]
    rw [any_map_inserted_ins x l]
    rw [List.any_eq_true]
    constructor
    · rintro ⟨p, hp, hflag⟩
      have hx : x = p.1 := by simpa using hflag
      exact hx ▸ List.mem_map.mpr ⟨p, hp, rfl⟩
    · intro hx
      rcases List.mem_map.mp hx with ⟨p, hp, hfst⟩
      exact ⟨p, hp, by simp [hfst]⟩


lemma runStep_char (ents : List Entity) (w : WorldState) (O : List Op)
    (hnd : (opsTexts w.storage O).Nodup)
    (hfresh : ∀ t, t ∈ opsTexts w.storage O → ∀ e, w.storage e ≠ some ⟨t⟩)
    (hinv : ∀ t e, w.table.names ⟨t⟩ = some e ↔ w.storage e = some ⟨t⟩)
    (hents : ∀ op ∈ O, op.entity ∈ ents) :
    (∀ t, (runStep ents w O).1.table.names ⟨t⟩ = O.foldl (mroStep t) (w.table.names ⟨t⟩))
      ∧ (∀ t e, ((runStep ents w O).1.table.names ⟨t⟩ = some e
          ↔ (runStep ents w O).1.storage e = some ⟨t⟩)) := by
  obtain ⟨hex1, hex2, hex3, hex4, hex5, hex6⟩ := applyOps_fresh_exec O w.storage hnd hfresh
  obtain ⟨hm1, hm2⟩ := applyOps_fresh_mro O w.storage hnd hfresh
  have hsndnd : ((insPairsOf O).map Prod.snd).Nodup := hex5 ▸ hnd
  have hstor : (runStep ents w O).1.storage = (applyOps w.storage O).1 := rfl
  have htbl : (runStep ents w O).1.table
      = (insertionPassFrom ents (applyOps w.storage O).1
          (drainEvents clearedSets (applyOps w.storage O).2).inserted
          (removalPass ents (applyOps w.storage O).1
            (drainEvents clearedSets (applyOps w.storage O).2).removed w.table, [])).1 := rfl
  obtain ⟨hrem0, hins0⟩ := drain_removed_inserted_events (insPairsOf O)
  have hremx : ∀ x, (drainEvents clearedSets (applyOps w.storage O).2).removed x = false := by
    rw [hex1]; exact hrem0
  have hinsx : ∀ x, ((drainEvents clearedSets (applyOps w.storage O).2).inserted x = true
      ↔ x ∈ (insPairsOf O).map Prod.fst) := by
    rw [hex1]; exact hins0
  have htbl1 : ∀ k, (removalPass ents (applyOps w.storage O).1
      (drainEvents clearedSets (applyOps w.storage O).2).removed w.table).names k = w.table.names k := by
    intro k
    rw [removalPass_names]
    have hany : (ents.any (fun e => (drainEvents clearedSets (applyOps w.storage O).2).removed e
        && decide ((applyOps w.storage O).1 e = some k))) = false := by
      apply List.any_eq_false.mpr
      intro e _
      simp [hremx e]
    rw [hany]
    simp
  have hnames : ∀ t, (runStep ents w O).1.table.names ⟨t⟩
      = ents.foldl (fun a e => if (drainEvents clearedSets (applyOps w.storage O).2).inserted e
          && decide ((applyOps w.storage O).1 e = some ⟨t⟩) then some e else a) (w.table.names ⟨t⟩) := by
    intro t
    rw [htbl, insertionPass_names]
    rw [htbl1 ⟨t⟩]
  have hsome : ∀ t (p : Entity × String), p ∈ insPairsOf O → p.2 = t →
      (runStep ents w O).1.table.names ⟨t⟩ = some p.1 := by
    intro t p hp hpt
    have hq : ∀ x, ((drainEvents clearedSets (applyOps w.storage O).2).inserted x
        && decide ((applyOps w.storage O).1 x = some ⟨t⟩)) = true ↔ x = p.1 := by
      intro x
      constructor
      · intro hx
        have hand := Bool.and_eq_true_iff.mp hx
        have hxmem := (hinsx x).mp hand.1
        rcases List.mem_map.mp hxmem with ⟨p2, hp2, hfst⟩
        have hval := hex3 p2 hp2
        rw [hfst] at hval
        have hvx : (applyOps w.storage O).1 x = some ⟨t⟩ := of_decide_eq_true hand.2
        rw [hval] at hvx
        have hsnd : p2.2 = t := by simpa [Name.mk.injEq] using hvx
        have hpp : p2 = p :=
          List.inj_on_of_nodup_map hsndnd hp2 hp (by rw [hsnd, hpt])
        rw [← hfst, hpp]
      · intro hx
        subst hx
        have h1 : (drainEvents clearedSets (applyOps w.storage O).2).inserted p.1 = true :=
          (hinsx p.1).mpr (List.mem_map.mpr ⟨p, hp, rfl⟩)
        have h2 : (applyOps w.storage O).1 p.1 = some ⟨t⟩ := by
          rw [hex3 p hp, hpt]
        simp [h1, h2]
    have hmem : p.1 ∈ ents := hents (Op.ins p.1 p.2) (ins_mem_of_pair O p hp)
    rw [hnames t]
    exact foldl_mark _ p.1 hq ents (w.table.names ⟨t⟩) hmem
  have hkeep : ∀ t, t ∉ (insPairsOf O).map Prod.snd →
      (runStep ents w O).1.table.names ⟨t⟩ = w.table.names ⟨t⟩ := by
    intro t ht
    rw [hnames t]
    apply foldl_if_keep
    intro e _
    by_cases hins : (drainEvents clearedSets (applyOps w.storage O).2).inserted e = true
    · rcases List.mem_map.mp ((hinsx e).mp hins) with ⟨p2, hp2, hfst⟩
      have hval := hex3 p2 hp2
      rw [hfst] at hval
      have hnot : ¬ ((applyOps w.storage O).1 e = some ⟨t⟩) := by
        rw [hval]
        intro hcon
        have : p2.2 = t := by simpa [Name.mk.injEq] using hcon
        exact ht (this ▸ List.mem_map.mpr ⟨p2, hp2, rfl⟩)
      simp [hins, hnot]
    · simp [Bool.of_not_eq_true hins]
  constructor
  · intro t
    by_cases ht : t ∈ (insPairsOf O).map Prod.snd
    · rcases List.mem_map.mp ht with ⟨p, hp, hpt⟩
      have hacc0 : w.table.names ⟨t⟩ = none := by
        cases hacc : w.table.names ⟨t⟩ with
        | none => rfl
        | some e =>
          exfalso
          exact hfresh t (hex5 ▸ ht) e ((hinv t e).mp hacc)
      rw [hsome t p hp hpt, hacc0]
      have := hm1 p hp
      rw [hpt] at this
      rw [this]
    · have hspec : O.foldl (mroStep t) (w.table.names ⟨t⟩) = w.table.names ⟨t⟩ := by
        apply hm2 t ht
        intro e he
        exact (hinv t e).mp he
      rw [hkeep t ht, hspec]
  · intro t e
    rw [hstor]
    by_cases ht : t ∈ (insPairsOf O).map Prod.snd
    · rcases List.mem_map.mp ht with ⟨p, hp, hpt⟩
      rw [hsome t p hp hpt]
      constructor
      · intro he
        have : p.1 = e := by simpa using he
        rw [← this, hex3 p hp, hpt]
      · intro he
        by_cases hmem : e ∈ (insPairsOf O).map Prod.fst
        · rcases List.mem_map.mp hmem with ⟨p2, hp2, hfst⟩
          have hval := hex3 p2 hp2
          rw [hfst] at hval
          rw [hval] at he
          have hsnd : p2.2 = t := by simpa [Name.mk.injEq] using he
          have hpp : p2 = p :=
            List.inj_on_of_nodup_map hsndnd hp2 hp (by rw [hsnd, hpt])
          rw [← hfst, hpp]
        · exfalso
          rw [hex2 e hmem] at he
          exact hfresh t (hex5 ▸ ht) e he
    · rw [hkeep t ht]
      have hrhs : ((applyOps w.storage O).1 e = some ⟨t⟩ ↔ w.storage e = some ⟨t⟩) := by
        by_cases hmem : e ∈ (insPairsOf O).map Prod.fst
        · rcases List.mem_map.mp hmem with ⟨p2, hp2, hfst⟩
          have hval := hex3 p2 hp2
          rw [hfst] at hval
          have hnone := hex6 p2 hp2
          rw [hfst] at hnone
          rw [hval, hnone]
          constructor
          · intro hcon
            exfalso
            have : p2.2 = t := by simpa [Name.mk.injEq] using hcon
            exact ht (this ▸ List.mem_map.mpr ⟨p2, hp2, rfl⟩)
          · intro hcon; cases hcon
        · rw [hex2 e hmem]
      rw [hrhs]
      exact hinv t e

lemma runSteps_table (ents : List Entity) :
    ∀ (steps : List (List Op)) (w : WorldState),
      (∀ t e, w.table.names ⟨t⟩ = some e ↔ w.storage e = some ⟨t⟩) →
      (opsTexts w.storage steps.flatten).Nodup →
      (∀ t, t ∈ opsTexts w.storage steps.flatten → ∀ e, w.storage e ≠ some ⟨t⟩) →
      (∀ op ∈ steps.flatten, op.entity ∈ ents) →
      ∀ t, (runSteps ents w steps).1.table.names ⟨t⟩
          = steps.flatten.foldl (mroStep t) (w.table.names ⟨t⟩) := by
  intro steps
  induction steps with
  | nil => intro w _ _ _ _ t; rfl
  | cons O R ih =>
    intro w hinv hnd hfresh hents t
    have hflat : (O :: R).flatten = O ++ R.flatten := by simp
    have hsplit : opsTexts w.storage ((O :: R).flatten)
        = opsTexts w.storage O ++ opsTexts (applyOps w.storage O).1 R.flatten := by
      rw [hflat, opsTexts_append]
    rw [hsplit] at hnd
    obtain ⟨hndO, hndR, hdisj⟩ := List.nodup_append.mp hnd
    have hfreshO : ∀ t2, t2 ∈ opsTexts w.storage O → ∀ e, w.storage e ≠ some ⟨t2⟩ := by
      intro t2 ht2 e
      exact hfresh t2 (by rw [hsplit]; exact List.mem_append_left _ ht2) e
    have hentsO : ∀ op ∈ O, op.entity ∈ ents := by
      intro op hop
      exact hents op (by rw [hflat]; exact List.mem_append_left _ hop)
    obtain ⟨hex1, hex2, hex3, hex4, hex5, hex6⟩ := applyOps_fresh_exec O w.storage hndO hfreshO
    obtain ⟨hc1, hc2⟩ := runStep_char ents w O hndO hfreshO hinv hentsO
    have hstor2 : (runStep ents w O).1.storage = (applyOps w.storage O).1 := rfl
    have hnd2 : (opsTexts (runStep ents w O).1.storage R.flatten).Nodup := by
      rw [hstor2]; exact hndR
    have hfresh2 : ∀ t2, t2 ∈ opsTexts (runStep ents w O).1.storage R.flatten →
        ∀ e, (runStep ents w O).1.storage e ≠ some ⟨t2⟩ := by
      intro t2 ht2 e
      rw [hstor2] at ht2 ⊢
      by_cases hmem : e ∈ (insPairsOf O).map Prod.fst
      · rcases List.mem_map.mp hmem with ⟨p2, hp2, hfst⟩
        have hval := hex3 p2 hp2
        rw [hfst] at hval
        rw [hval]
        intro hcon
        have hsnd : p2.2 = t2 := by simpa [Name.mk.injEq] using hcon
        have hin1 : p2.2 ∈ opsTexts w.storage O := by
          rw [hex5]; exact List.mem_map.mpr ⟨p2, hp2, rfl⟩
        exact hdisj hin1 (hsnd ▸ ht2)
      · rw [hex2 e hmem]
        exact hfresh t2 (by rw [hsplit]; exact List.mem_append_right _ ht2) e
    have hents2 : ∀ op ∈ R.flatten, op.entity ∈ ents := by
      intro op hop
      exact hents op (by rw [hflat]; exact List.mem_append_right _ hop)
    have hrun : (runSteps ents w (O :: R)).1 = (runSteps ents (runStep ents w O).1 R).1 := rfl
    rw [hrun]
    rw [ih (runStep ents w O).1 hc2 hnd2 hfresh2 hents2 t]
    rw [hc1 t]
    rw [hflat, List.foldl_append]

lemma NameTable.ext_names {a b : NameTable} (h : ∀ k, a.names k = b.names k) : a = b := by
  cases a
  cases b
  simp only [NameTable.mk.injEq]
  funext k
  exact h k

lemma removalPass_no_rem (s : Storage) (rem : Entity → Bool) (hrem : ∀ e, rem e = false) :
    ∀ (ents : List Entity) (tbl : NameTable), removalPass ents s rem tbl = tbl := by
  intro ents
  induction ents with
  | nil => intro tbl; rfl
  | cons e rest ih =>
    intro tbl
    have hstep : removalPass (e :: rest) s rem tbl = removalPass rest s rem (removalStep s rem tbl e) := rfl
    have hs : removalStep s rem tbl e = tbl := by simp [removalStep, hrem e]
    rw [hstep, hs, ih]

lemma insertionPass_no_ins (s : Storage) (ins : Entity → Bool) (hins : ∀ e, ins e = false) :
    ∀ (ents : List Entity) (acc : NameTable × List Warning), insertionPassFrom ents s ins acc = acc := by
  intro ents
  induction ents with
  | nil => intro acc; rfl
  | cons e rest ih =>
    intro acc
    have hstep : insertionPassFrom (e :: rest) s ins acc
        = insertionPassFrom rest s ins (insertionStep s ins acc e) := rfl
    have hs : insertionStep s ins acc e = acc := by simp [insertionStep, hins e]
    rw [hstep, hs, ih]

lemma insertion_two_collide (s : Storage) (ins : Entity → Bool) (tbl : NameTable) (x : String)
    (A B : Entity) (hA : ins A = true) (hB : ins B = true)
    (hsA : s A = some ⟨x⟩) (hsB : s B = some ⟨x⟩) (hfree : tbl.names ⟨x⟩ = none) :
    insertionPassFrom [A, B] s ins (tbl, [])
      = ((tbl.insertKey ⟨x⟩ A).insertKey ⟨x⟩ B, [⟨B, x, A⟩]) := by
  have h1 : insertionStep s ins (tbl, []) A = (tbl.insertKey ⟨x⟩ A, []) := by
    simp [insertionStep, hA, hsA, insertEntry, hfree]
  have h2 : insertionStep s ins (tbl.insertKey ⟨x⟩ A, []) B
      = ((tbl.insertKey ⟨x⟩ A).insertKey ⟨x⟩ B, [⟨B, x, A⟩]) := by
    have hocc : (tbl.insertKey ⟨x⟩ A).names ⟨x⟩ = some A := by
      simp [NameTable.insertKey]
    simp [insertionStep, hB, hsB, insertEntry, hocc]
  show insertionStep s ins (insertionStep s ins (tbl, []) A) B = _
  rw [h1, h2]

/-! ## The claims -/

/-- C4: Idempotent empty step — for every bookkeeping state, entity
iteration order, storage and table, a step that drains no change-log
entries ends with both working sets empty, the `NameTable` exactly
unchanged, and no warnings: neither pass touches any entry. -/
theorem empty_step_identity (st : NameTableBookkeeping) (ents : List Entity)
    (s : Storage) (tbl : NameTable) :
    NameTableBookkeeping.run st [] ents s tbl = (clearedSets, tbl, []) := by
  have h1 : NameTableBookkeeping.run st [] ents s tbl
      = (clearedSets,
         (insertionPassFrom ents s clearedSets.inserted
           (removalPass ents s clearedSets.removed tbl, [])).1,
         (insertionPassFrom ents s clearedSets.inserted
           (removalPass ents s clearedSets.removed tbl, [])).2) := rfl
  rw [h1]
  rw [removalPass_no_rem s clearedSets.removed (fun _ => rfl) ents tbl]
  rw [insertionPass_no_ins s clearedSets.inserted (fun _ => rfl) ents (tbl, [])]

/-- C2: True-deletion gap — if the table maps text `t` to handle `H`
and a step drains only a `Removed` event for `H` while `H` has no
current value in the storage, then after the step `get t` still
returns `H`; moreover the removal pass leaves the table untouched
whenever every removed-flagged handle has no current value. -/
theorem true_deletion_gap (t : String) (H : Entity) (tbl : NameTable) (s : Storage)
    (ents : List Entity) (st : NameTableBookkeeping)
    (hget : tbl.get t = some H) (hs : s H = none) :
    ((NameTableBookkeeping.run st [ComponentEvent.Removed H] ents s tbl).2.1.get t = some H)
      ∧ (∀ (ents2 : List Entity) (s2 : Storage) (rem : Entity → Bool) (tbl2 : NameTable),
          (∀ e, rem e = true → s2 e = none) → removalPass ents2 s2 rem tbl2 = tbl2) := by
  have hskip : ∀ (ents2 : List Entity) (s2 : Storage) (rem : Entity → Bool) (tbl2 : NameTable),
      (∀ e, rem e = true → s2 e = none) → removalPass ents2 s2 rem tbl2 = tbl2 := by
    intro ents2 s2 rem tbl2 hnone
    apply NameTable.ext_names
    intro k
    rw [removalPass_names]
    have hany : ents2.any (fun e => rem e && decide (s2 e = some k)) = false := by
      apply List.any_eq_false.mpr
      intro e _
      by_cases hre : rem e = true
      · simp [hre, hnone e hre]
      · simp [Bool.of_not_eq_true hre]
    rw [hany]
    simp
  refine ⟨?_, hskip⟩
  have hins : ∀ x, (drainEvents clearedSets [ComponentEvent.Removed H]).inserted x = false := by
    intro x
    rw [drain_inserted]
    simp [clearedSets, flagsIns]
  have hrem : ∀ x, (drainEvents clearedSets [ComponentEvent.Removed H]).removed x = true → s x = none := by
    intro x hx
    rw [drain_removed] at hx
    simp [clearedSets, flagsRem] at hx
    rw [hx]
    exact hs
  have htbl : (NameTableBookkeeping.run st [ComponentEvent.Removed H] ents s tbl).2.1
      = (insertionPassFrom ents s (drainEvents clearedSets [ComponentEvent.Removed H]).inserted
          (removalPass ents s (drainEvents clearedSets [ComponentEvent.Removed H]).removed tbl, [])).1 := rfl
  have hstep1 : removalPass ents s (drainEvents clearedSets [ComponentEvent.Removed H]).removed tbl = tbl :=
    hskip ents s _ tbl hrem
  have hstep2 : insertionPassFrom ents s (drainEvents clearedSets [ComponentEvent.Removed H]).inserted
      (tbl, []) = (tbl, []) :=
    insertionPass_no_ins s _ hins ents (tbl, [])
  show (NameTableBookkeeping.run st [ComponentEvent.Removed H] ents s tbl).2.1.get t = some H
  rw [htbl, hstep1, hstep2]
  exact hget

/-- C2 witness: a concrete deleted handle keeps its stale entry. -/
theorem true_deletion_gap_witness :
    ((⟨fun k => if k = ⟨"x"⟩ then some 1 else none⟩ : NameTable).get "x" = some 1)
      ∧ ((NameTableBookkeeping.run clearedSets [ComponentEvent.Removed 1] [1] (fun _ => none)
          ⟨fun k => if k = ⟨"x"⟩ then some 1 else none⟩).2.1.get "x" = some 1) := by
  refine ⟨by decide, ?_⟩
  exact (true_deletion_gap "x" 1 ⟨fun k => if k = ⟨"x"⟩ then some 1 else none⟩ (fun _ => none)
    [1] clearedSets (by decide) rfl).1

/-- C9: Frame property of a step — a table entry whose key is not the
current value of any removed-flagged handle nor of any inserted-flagged
handle is left exactly unchanged. -/
theorem step_frame (st : NameTableBookkeeping) (events : List ComponentEvent)
    (ents : List Entity) (s : Storage) (tbl : NameTable) (k : Name)
    (hrem : ∀ e, (drainEvents clearedSets events).removed e = true → s e ≠ some k)
    (hins : ∀ e, (drainEvents clearedSets events).inserted e = true → s e ≠ some k) :
    (NameTableBookkeeping.run st events ents s tbl).2.1.names k = tbl.names k := by
  have htbl : (NameTableBookkeeping.run st events ents s tbl).2.1
      = (insertionPassFrom ents s (drainEvents clearedSets events).inserted
          (removalPass ents s (drainEvents clearedSets events).removed tbl, [])).1 := rfl
  rw [htbl, insertionPass_names]
  have hkeep : ∀ e ∈ ents, ((drainEvents clearedSets events).inserted e
      && decide (s e = some k)) = false := by
    intro e _
    by_cases hi : (drainEvents clearedSets events).inserted e = true
    · simp [hi, hins e hi]
    · simp [Bool.of_not_eq_true hi]
  rw [foldl_if_keep _ ents _ hkeep]
  rw [removalPass_names]
  have hany : ents.any (fun e => (drainEvents clearedSets events).removed e
      && decide (s e = some k)) = false := by
    apply List.any_eq_false.mpr
    intro e _
    by_cases hr : (drainEvents clearedSets events).removed e = true
    · simp [hr, hrem e hr]
    · simp [Bool.of_not_eq_true hr]
  rw [hany]
  simp

/-- C9 witness: an entry keyed `"b"` survives a step inserting `"a"`. -/
theorem step_frame_witness :
    (NameTableBookkeeping.run clearedSets [ComponentEvent.Inserted 1] [1]
        (fun e => if e = 1 then some ⟨"a"⟩ else none)
        ⟨fun k => if k = ⟨"b"⟩ then some 5 else none⟩).2.1.names ⟨"b"⟩ = some 5 := by
  have h := step_frame clearedSets [ComponentEvent.Inserted 1] [1]
      (fun e => if e = 1 then some ⟨"a"⟩ else none)
      ⟨fun k => if k = ⟨"b"⟩ then some 5 else none⟩ ⟨"b"⟩
      (by
        intro e he
        rw [drain_removed] at he
        simp [clearedSets, flagsRem] at he)
      (by
        intro e he
        rw [drain_inserted] at he
        simp [clearedSets, flagsIns] at he
        subst he
        decide)
  rw [h]
  decide

/-- C10: `get` coherence — the borrowed-slice lookup returns `some e`
exactly when the table holds an entry whose key's text equals the
queried string, with value `e`. -/
theorem get_coherence (tbl : NameTable) (s : String) (e : Entity) :
    tbl.get s = some e ↔ ∃ k : Name, tbl.names k = some e ∧ k.text = s := by
  constructor
  · intro h
    exact ⟨⟨s⟩, h, rfl⟩
  · rintro ⟨⟨tx⟩, hk, ht⟩
    cases ht
    exact hk

/-- C8: `Name` equality and hash contract — two names are equal exactly
when their underlying texts agree character for character, and the hash
is a function of the text alone. -/
theorem name_eq_hash_contract (a b : Name) :
    (a = b ↔ a.text.data = b.text.data) ∧ (a.text = b.text → hash a = hash b) := by
  constructor
  · cases a
    cases b
    simp only [Name.mk.injEq]
    exact String.ext_iff
  · intro h
    show nameHash a = nameHash b
    unfold nameHash
    rw [h]

/-- C3: Collision resolution — when a step drains exactly two `Inserted`
events for distinct handles whose current texts are both `x`, and `x` is
unmapped beforehand, the step completes with `get x` equal to exactly one
of the two handles and exactly one collision warning naming the incoming
handle, the colliding text, and the previously mapped handle.  The run
is a total function, so the step never aborts or propagates a failure. -/
theorem collision_resolution (x : String) (H1 H2 : Entity) (ents : List Entity)
    (s : Storage) (tbl : NameTable) (st : NameTableBookkeeping)
    (hne : H1 ≠ H2) (h1 : H1 ∈ ents) (h2 : H2 ∈ ents) (hnd : ents.Nodup)
    (hs1 : s H1 = some ⟨x⟩) (hs2 : s H2 = some ⟨x⟩) (hfree : tbl.get x = none) :
    ((NameTableBookkeeping.run st [ComponentEvent.Inserted H1, ComponentEvent.Inserted H2]
        ents s tbl).2.1.get x = some H1
      ∨ (NameTableBookkeeping.run st [ComponentEvent.Inserted H1, ComponentEvent.Inserted H2]
          ents s tbl).2.1.get x = some H2)
    ∧ (((NameTableBookkeeping.run st [ComponentEvent.Inserted H1, ComponentEvent.Inserted H2]
          ents s tbl).2.2 = [⟨H2, x, H1⟩]
        ∧ (NameTableBookkeeping.run st [ComponentEvent.Inserted H1, ComponentEvent.Inserted H2]
            ents s tbl).2.1.get x = some H2)
      ∨ ((NameTableBookkeeping.run st [ComponentEvent.Inserted H1, ComponentEvent.Inserted H2]
            ents s tbl).2.2 = [⟨H1, x, H2⟩]
        ∧ (NameTableBookkeeping.run st [ComponentEvent.Inserted H1, ComponentEvent.Inserted H2]
            ents s tbl).2.1.get x = some H1)) := by
  have hinsx : ∀ e, ((drainEvents clearedSets
      [ComponentEvent.Inserted H1, ComponentEvent.Inserted H2]).inserted e = true
        ↔ (e = H1 ∨ e = H2)) := by
    intro e
    rw [drain_inserted]
    simp [clearedSets, flagsIns]
  have hremx : ∀ e, (drainEvents clearedSets
      [ComponentEvent.Inserted H1, ComponentEvent.Inserted H2]).removed e = false := by
    intro e
    rw [drain_removed]
    simp [clearedSets, flagsRem]
  have hout : (NameTableBookkeeping.run st [ComponentEvent.Inserted H1, ComponentEvent.Inserted H2]
      ents s tbl).2
      = insertionPassFrom ents s
          (drainEvents clearedSets [ComponentEvent.Inserted H1, ComponentEvent.Inserted H2]).inserted
          (removalPass ents s
            (drainEvents clearedSets [ComponentEvent.Inserted H1, ComponentEvent.Inserted H2]).removed tbl,
           []) := rfl
  have hrp : removalPass ents s
      (drainEvents clearedSets [ComponentEvent.Inserted H1, ComponentEvent.Inserted H2]).removed tbl
      = tbl := removalPass_no_rem s _ hremx ents tbl
  have hfilter : insertionPassFrom ents s
      (drainEvents clearedSets [ComponentEvent.Inserted H1, ComponentEvent.Inserted H2]).inserted (tbl, [])
      = insertionPassFrom (ents.filter (fun e =>
          (drainEvents clearedSets [ComponentEvent.Inserted H1, ComponentEvent.Inserted H2]).inserted e
            && (s e).isSome)) s
          (drainEvents clearedSets [ComponentEvent.Inserted H1, ComponentEvent.Inserted H2]).inserted
          (tbl, []) :=
    insertionPass_filter s _ ents (tbl, [])
  have hq1 : ((drainEvents clearedSets [ComponentEvent.Inserted H1, ComponentEvent.Inserted H2]).inserted H1
      && (s H1).isSome) = true := by
    simp [(hinsx H1).mpr (Or.inl rfl), hs1]
  have hq2 : ((drainEvents clearedSets [ComponentEvent.Inserted H1, ComponentEvent.Inserted H2]).inserted H2
      && (s H2).isSome) = true := by
    simp [(hinsx H2).mpr (Or.inr rfl), hs2]
  have hqmem : ∀ e ∈ ents, ((drainEvents clearedSets
      [ComponentEvent.Inserted H1, ComponentEvent.Inserted H2]).inserted e
        && (s e).isSome) = true → e = H1 ∨ e = H2 := by
    intro e _ he
    exact (hinsx e).mp (Bool.and_eq_true_iff.mp he).1
  have hpair := filter_eq_pair H1 H2 _ hne ents hnd h1 h2 hqmem hq1 hq2
  have hfree2 : tbl.names ⟨x⟩ = none := hfree
  rcases hpair with hp | hp
  · have heval : insertionPassFrom (ents.filter (fun e =>
        (drainEvents clearedSets [ComponentEvent.Inserted H1, ComponentEvent.Inserted H2]).inserted e
          && (s e).isSome)) s
        (drainEvents clearedSets [ComponentEvent.Inserted H1, ComponentEvent.Inserted H2]).inserted
        (tbl, [])
        = ((tbl.insertKey ⟨x⟩ H1).insertKey ⟨x⟩ H2, [⟨H2, x, H1⟩]) := by
      rw [hp]
      exact insertion_two_collide s _ tbl x H1 H2
        ((hinsx H1).mpr (Or.inl rfl)) ((hinsx H2).mpr (Or.inr rfl)) hs1 hs2 hfree2
    have hres : (NameTableBookkeeping.run st [ComponentEvent.Inserted H1, ComponentEvent.Inserted H2]
        ents s tbl).2 = ((tbl.insertKey ⟨x⟩ H1).insertKey ⟨x⟩ H2, [⟨H2, x, H1⟩]) := by
      rw [hout, hrp, hfilter, heval]
    have hget2 : (NameTableBookkeeping.run st [ComponentEvent.Inserted H1, ComponentEvent.Inserted H2]
        ents s tbl).2.1.get x = some H2 := by
      rw [hres]
      simp [NameTable.get, NameTable.insertKey]
    have hws : (NameTableBookkeeping.run st [ComponentEvent.Inserted H1, ComponentEvent.Inserted H2]
        ents s tbl).2.2 = [⟨H2, x, H1⟩] := by
      rw [hres]
    exact ⟨Or.inr hget2, Or.inl ⟨hws, hget2⟩⟩
  · have heval : insertionPassFrom (ents.filter (fun e =>
        (drainEvents clearedSets [ComponentEvent.Inserted H1, ComponentEvent.Inserted H2]).inserted e
          && (s e).isSome)) s
        (drainEvents clearedSets [ComponentEvent.Inserted H1, ComponentEvent.Inserted H2]).inserted
        (tbl, [])
        = ((tbl.insertKey ⟨x⟩ H2).insertKey ⟨x⟩ H1, [⟨H1, x, H2⟩]) := by
      rw [hp]
      exact insertion_two_collide s _ tbl x H2 H1
        ((hinsx H2).mpr (Or.inr rfl)) ((hinsx H1).mpr (Or.inl rfl)) hs2 hs1 hfree2
    have hres : (NameTableBookkeeping.run st [ComponentEvent.Inserted H1, ComponentEvent.Inserted H2]
        ents s tbl).2 = ((tbl.insertKey ⟨x⟩ H2).insertKey ⟨x⟩ H1, [⟨H1, x, H2⟩]) := by
      rw [hout, hrp, hfilter, heval]
    have hget1 : (NameTableBookkeeping.run st [ComponentEvent.Inserted H1, ComponentEvent.Inserted H2]
        ents s tbl).2.1.get x = some H1 := by
      rw [hres]
      simp [NameTable.get, NameTable.insertKey]
    have hws : (NameTableBookkeeping.run st [ComponentEvent.Inserted H1, ComponentEvent.Inserted H2]
        ents s tbl).2.2 = [⟨H1, x, H2⟩] := by
      rw [hres]
    exact ⟨Or.inl hget1, Or.inr ⟨hws, hget1⟩⟩

/-- C3 witness: handles 1 and 2 both inserted as `"x"` in one step. -/
theorem collision_resolution_witness :
    ((NameTableBookkeeping.run clearedSets [ComponentEvent.Inserted 1, ComponentEvent.Inserted 2] [1, 2]
        (fun e => if e = 1 then some ⟨"x"⟩ else if e = 2 then some ⟨"x"⟩ else none)
        emptyTable).2.2 = [⟨2, "x", 1⟩]
      ∧ (NameTableBookkeeping.run clearedSets [ComponentEvent.Inserted 1, ComponentEvent.Inserted 2] [1, 2]
          (fun e => if e = 1 then some ⟨"x"⟩ else if e = 2 then some ⟨"x"⟩ else none)
          emptyTable).2.1.get "x" = some 2)
    ∨ ((NameTableBookkeeping.run clearedSets [ComponentEvent.Inserted 1, ComponentEvent.Inserted 2] [1, 2]
          (fun e => if e = 1 then some ⟨"x"⟩ else if e = 2 then some ⟨"x"⟩ else none)
          emptyTable).2.2 = [⟨1, "x", 2⟩]
      ∧ (NameTableBookkeeping.run clearedSets [ComponentEvent.Inserted 1, ComponentEvent.Inserted 2] [1, 2]
          (fun e => if e = 1 then some ⟨"x"⟩ else if e = 2 then some ⟨"x"⟩ else none)
          emptyTable).2.1.get "x" = some 1) :=
  (collision_resolution "x" 1 2 [1, 2]
    (fun e => if e = 1 then some ⟨"x"⟩ else if e = 2 then some ⟨"x"⟩ else none)
    emptyTable clearedSets (by decide) (by decide) (by decide) (by decide)
    (by decide) (by decide) rfl).2

/-- C6: Same-step collapse — draining only grows the working sets (OR
semantics); the insertion pass is exactly the fold of its write list over
the table; with a duplicate-free entity iteration the write list holds at
most one write per handle; and every write records the handle's
end-of-step current value in the post-operations storage, never an
intermediate value. -/
theorem same_step_collapse (w : WorldState) (ops : List Op) (ents : List Entity) (H : Entity)
    (hnd : ents.Nodup) :
    (∀ (st : NameTableBookkeeping) (evs : List ComponentEvent) (e : Entity),
        (st.inserted e = true → (drainEvents st evs).inserted e = true)
          ∧ (st.removed e = true → (drainEvents st evs).removed e = true))
      ∧ (∀ acc, insertionPassFrom ents (applyOps w.storage ops).1
            (drainEvents clearedSets (applyOps w.storage ops).2).inserted acc
          = applyWrites (insertWrites ents (applyOps w.storage ops).1
              (drainEvents clearedSets (applyOps w.storage ops).2).inserted) acc)
      ∧ ((insertWrites ents (applyOps w.storage ops).1
            (drainEvents clearedSets (applyOps w.storage ops).2).inserted).filter
              (fun p => decide (p.1 = H))).length ≤ 1
      ∧ (∀ p ∈ insertWrites ents (applyOps w.storage ops).1
            (drainEvents clearedSets (applyOps w.storage ops).2).inserted,
          (applyOps w.storage ops).1 p.1 = some p.2) := by
  refine ⟨?_, ?_, ?_, ?_⟩
  · intro st evs e
    constructor
    · intro h
      rw [drain_inserted]
      simp [h]
    · intro h
      rw [drain_removed]
      simp [h]
  · intro acc
    exact insertionPass_eq_applyWrites _ _ ents acc
  · calc ((insertWrites ents (applyOps w.storage ops).1
          (drainEvents clearedSets (applyOps w.storage ops).2).inserted).filter
            (fun p => decide (p.1 = H))).length
        ≤ ents.count H := insertWrites_count_le _ _ H ents
      _ ≤ 1 := List.nodup_iff_count_le_one.mp hnd H
  · intro p hp
    exact (insertWrites_value _ _ ents p hp).1

/-- C6 witness: handle 5 renamed twice in one step yields at most one
insertion-pass write for it. -/
theorem same_step_collapse_witness :
    ([5] : List Entity).Nodup
      ∧ ((insertWrites [5] (applyOps emptyWorld.storage [Op.ins 5 "q", Op.ins 5 "r"]).1
            (drainEvents clearedSets (applyOps emptyWorld.storage [Op.ins 5 "q", Op.ins 5 "r"]).2).inserted).filter
              (fun p => decide (p.1 = 5))).length ≤ 1 :=
  ⟨by decide,
   (same_step_collapse emptyWorld [Op.ins 5 "q", Op.ins 5 "r"] [5] 5 (by decide)).2.2.1⟩

/-- C7: Eviction by key text alone — a concrete run in which two handles
have shared the text `"x"`: handle 1 validly owns the entry `"x" → 1`
while handle 2 is flagged removed with current value `"x"`, and the
removal pass erases the entry for `"x"` even though it maps to the
still-valid handle 1. -/
theorem evict_by_key_text :
    ((runSteps [1, 2] emptyWorld [[Op.ins 1 "x", Op.ins 2 "w"]]).1.table.get "x" = some 1)
      ∧ ((runSteps [1, 2] emptyWorld [[Op.ins 1 "x", Op.ins 2 "w"]]).1.storage 1 = some ⟨"x"⟩)
      ∧ ((applyOps (runSteps [1, 2] emptyWorld [[Op.ins 1 "x", Op.ins 2 "w"]]).1.storage
            [Op.ins 2 "x"]).1 2 = some ⟨"x"⟩)
      ∧ ((drainEvents clearedSets (applyOps (runSteps [1, 2] emptyWorld
            [[Op.ins 1 "x", Op.ins 2 "w"]]).1.storage [Op.ins 2 "x"]).2).removed 2 = true)
      ∧ ((removalPass [1, 2]
            (applyOps (runSteps [1, 2] emptyWorld [[Op.ins 1 "x", Op.ins 2 "w"]]).1.storage
              [Op.ins 2 "x"]).1
            (drainEvents clearedSets (applyOps (runSteps [1, 2] emptyWorld
              [[Op.ins 1 "x", Op.ins 2 "w"]]).1.storage [Op.ins 2 "x"]).2).removed
            (runSteps [1, 2] emptyWorld [[Op.ins 1 "x", Op.ins 2 "w"]]).1.table).get "x" = none) := by
  refine ⟨rfl, rfl, rfl, rfl, rfl⟩

/-- C1 counterexample: inserting handle 1 as `"a"` and later modifying it
to `"c"` in a second step leaves `get "a" = some 1`: the stale entry for
the pre-change key survives, so `get "a"` is not `none` as claimed
(while `get "c" = some 1` does hold). -/
theorem rename_modify_stale_key :
    ((runSteps [1] emptyWorld [[Op.ins 1 "a"], [Op.ins 1 "c"]]).1.table.get "a" = some 1)
      ∧ ((runSteps [1] emptyWorld [[Op.ins 1 "a"], [Op.ins 1 "c"]]).1.table.get "c" = some 1)
      ∧ ¬ ((runSteps [1] emptyWorld [[Op.ins 1 "a"], [Op.ins 1 "c"]]).1.table.get "a" = none) := by
  refine ⟨rfl, rfl, ?_⟩
  intro h
  cases h

/-- C1 amended: for a step draining a `Modified` event for handle `H`
whose key text changed from `a` to `b` (no other handle holds `a` or
`b`, and `a` maps to `H` before the step), after the step `get b`
returns `H` and `get a` still returns `H`: the removal pass erases only
the entry keyed by `H`'s current post-change value `b`, so the stale
entry for the old key `a` is never evicted. -/
theorem rename_modify_amended (a b : String) (H : Entity) (ents : List Entity)
    (s : Storage) (tbl : NameTable) (st : NameTableBookkeeping)
    (hab : a ≠ b) (hmem : H ∈ ents)
    (hs : s H = some ⟨b⟩)
    (hother : ∀ e, e ≠ H → s e ≠ some ⟨a⟩ ∧ s e ≠ some ⟨b⟩)
    (hget : tbl.get a = some H) :
    ((NameTableBookkeeping.run st [ComponentEvent.Modified H] ents s tbl).2.1.get b = some H)
      ∧ ((NameTableBookkeeping.run st [ComponentEvent.Modified H] ents s tbl).2.1.get a = some H) := by
  have hinsx : ∀ e, ((drainEvents clearedSets [ComponentEvent.Modified H]).inserted e = true ↔ e = H) := by
    intro e
    rw [drain_inserted]
    simp [clearedSets, flagsIns]
  have hremx : ∀ e, ((drainEvents clearedSets [ComponentEvent.Modified H]).removed e = true ↔ e = H) := by
    intro e
    rw [drain_removed]
    simp [clearedSets, flagsRem]
  have htbl : (NameTableBookkeeping.run st [ComponentEvent.Modified H] ents s tbl).2.1
      = (insertionPassFrom ents s (drainEvents clearedSets [ComponentEvent.Modified H]).inserted
          (removalPass ents s (drainEvents clearedSets [ComponentEvent.Modified H]).removed tbl, [])).1 := rfl
  have htbl1 : ∀ k, k ≠ (⟨b⟩ : Name) →
      (removalPass ents s (drainEvents clearedSets [ComponentEvent.Modified H]).removed tbl).names k
        = tbl.names k := by
    intro k hk
    rw [removalPass_names]
    have hany : ents.any (fun e => (drainEvents clearedSets [ComponentEvent.Modified H]).removed e
        && decide (s e = some k)) = false := by
      apply List.any_eq_false.mpr
      intro e _
      by_cases hre : (drainEvents clearedSets [ComponentEvent.Modified H]).removed e = true
      · have heH : e = H := (hremx e).mp hre
        subst heH
        have : ¬ (s e = some k) := by
          rw [hs]
          intro hcon
          apply hk
          simpa using hcon.symm
        simp [hre, this]
      · simp [Bool.of_not_eq_true hre]
    rw [hany]
    simp
  constructor
  · show (NameTableBookkeeping.run st [ComponentEvent.Modified H] ents s tbl).2.1.names ⟨b⟩ = some H
    rw [htbl, insertionPass_names]
    have hq : ∀ x, ((drainEvents clearedSets [ComponentEvent.Modified H]).inserted x
        && decide (s x = some ⟨b⟩)) = true ↔ x = H := by
      intro x
      constructor
      · intro hx
        exact (hinsx x).mp (Bool.and_eq_true_iff.mp hx).1
      · intro hx
        subst hx
        simp [(hinsx x).mpr rfl, hs]
    exact foldl_mark _ H hq ents _ hmem
  · show (NameTableBookkeeping.run st [ComponentEvent.Modified H] ents s tbl).2.1.names ⟨a⟩ = some H
    rw [htbl, insertionPass_names]
    have hkeep : ∀ e ∈ ents, ((drainEvents clearedSets [ComponentEvent.Modified H]).inserted e
        && decide (s e = some ⟨a⟩)) = false := by
      intro e _
      by_cases hi : (drainEvents clearedSets [ComponentEvent.Modified H]).inserted e = true
      · have heH : e = H := (hinsx e).mp hi
        subst heH
        have : ¬ (s e = some ⟨a⟩) := by
          rw [hs]
          intro hcon
          have hba : b = a := by simpa [Name.mk.injEq] using hcon
          exact hab hba.symm
        simp [hi, this]
      · simp [Bool.of_not_eq_true hi]
    rw [foldl_if_keep _ ents _ hkeep]
    have hne : (⟨a⟩ : Name) ≠ (⟨b⟩ : Name) := by
      simp [Name.mk.injEq]
      exact hab
    rw [htbl1 ⟨a⟩ hne]
    exact hget

/-- C1 witness: the amended rename behavior at a concrete input. -/
theorem rename_modify_amended_witness :
    (("a" : String) ≠ "c")
      ∧ ((NameTableBookkeeping.run clearedSets [ComponentEvent.Modified 1] [1]
          (fun e => if e = 1 then some ⟨"c"⟩ else none)
          ⟨fun k => if k = ⟨"a"⟩ then some 1 else none⟩).2.1.get "c" = some 1)
      ∧ ((NameTableBookkeeping.run clearedSets [ComponentEvent.Modified 1] [1]
          (fun e => if e = 1 then some ⟨"c"⟩ else none)
          ⟨fun k => if k = ⟨"a"⟩ then some 1 else none⟩).2.1.get "a" = some 1) := by
  obtain ⟨hb, ha⟩ := rename_modify_amended "a" "c" 1 [1]
    (fun e => if e = 1 then some ⟨"c"⟩ else none)
    ⟨fun k => if k = ⟨"a"⟩ then some 1 else none⟩ clearedSets
    (by decide) (by decide) rfl
    (by
      intro e he
      constructor <;> simp [he])
    (by decide)
  exact ⟨by decide, hb, ha⟩

/-- C5: No-collision uniqueness — for a sequence of steps from the empty
world whose occurring key texts (each operation's written text together
with any text it displaces or removes) are pairwise distinct, and an
entity iteration covering every affected handle, after consuming all
steps `get t` returns exactly the handle most recently associated with
text `t`, and `none` when no handle is currently associated with it. -/
theorem no_collision_uniqueness (steps : List (List Op)) (ents : List Entity) (t : String)
    (hnd : (opsTexts emptyWorld.storage steps.flatten).Nodup)
    (hents : ∀ op ∈ steps.flatten, op.entity ∈ ents) :
    (runSteps ents emptyWorld steps).1.table.get t = mostRecentOwner steps.flatten t := by
  have hinv : ∀ t2 e, emptyWorld.table.names ⟨t2⟩ = some e ↔ emptyWorld.storage e = some ⟨t2⟩ := by
    intro t2 e
    constructor
    · intro h
      cases h
    · intro h
      cases h
  have hfresh : ∀ t2, t2 ∈ opsTexts emptyWorld.storage steps.flatten →
      ∀ e, emptyWorld.storage e ≠ some ⟨t2⟩ := by
    intro t2 _ e h
    cases h
  exact runSteps_table ents steps emptyWorld hinv hnd hfresh hents t

/-- C5 witness: two single-insert steps with distinct texts. -/
theorem no_collision_uniqueness_witness :
    (opsTexts emptyWorld.storage [[Op.ins 1 "a"], [Op.ins 2 "b"]].flatten).Nodup
      ∧ ((runSteps [1, 2] emptyWorld [[Op.ins 1 "a"], [Op.ins 2 "b"]]).1.table.get "a"
          = mostRecentOwner [[Op.ins 1 "a"], [Op.ins 2 "b"]].flatten "a") :=
  ⟨by decide,
   no_collision_uniqueness [[Op.ins 1 "a"], [Op.ins 2 "b"]] [1, 2] "a" (by decide) (by decide)⟩
